import Mathlib

/-!
# Verification of the SQL schema extractor (`src/main.py`)

Shallow embedding of the extraction and reconciliation engine of
`main.py`.  The engine is a pipeline of Python `re` operations over the
file's text; each regex pass is embedded as an executable scanner over
`List Char` that reproduces the leftmost, non-overlapping `re.findall`
semantics (greedy `\w+`, alternation order, one-character advance on
failure).  `\w` is modelled as `[A-Za-z0-9_]` and `\s` as the six ASCII
whitespace characters, matching the identifier alphabet stated in the
spec's data model.  Scanners that jump over matched spans take an
explicit fuel argument (one unit per scan step, so fuel = input length
always suffices); fuel sufficiency is proved below.
-/

namespace SqlXtract

/-- `\w` character class (ASCII): letters, digits, underscore. -/
def isWordChar (c : Char) : Bool := c.isAlphanum || c == '_'

/-- `\s` character class (ASCII): space, tab, newline, CR, VT, FF. -/
def isPySpace (c : Char) : Bool :=
  c == ' ' || c == '\t' || c == '\n' || c == '\r' ||
  c == Char.ofNat 11 || c == Char.ofNat 12

/-- Python's `str.upper` on ASCII text: uppercase every character. -/
def upperStr (s : String) : String := ⟨s.data.map Char.toUpper⟩

/-- Python's `str.strip()`: drop leading and trailing whitespace. -/
def pyStrip (l : List Char) : List Char :=
  ((l.dropWhile isPySpace).reverse.dropWhile isPySpace).reverse

/-- Python's `"x".rstrip('.')` (src/main.py line 80/88): drop all trailing dots. -/
def rstripDot (s : String) : String := ⟨(s.data.reverse.dropWhile (· == '.')).reverse⟩

/-! ## Normalizer (src/main.py lines 13-14)

`re.sub(r'--.*?\n|/\*[\s\S]*?\*/|\n|\t', ' ', content)` followed by
`re.sub(r'\s+', ' ', content).strip()`.

The first substitution scans left to right; at each position the
alternatives are tried in order.  `--.*?\n` matches from `--` through
the first following newline (`.` cannot cross a newline, so non-greedy
and greedy agree); `/\*[\s\S]*?\*/` matches through the first `*/`.
If no alternative matches, the engine keeps the character and advances
one position.  Every matched span is replaced by one space. -/

/-- Remainder of the list after the first occurrence of `t`; `none` if absent. -/
def dropThroughChar (t : Char) : List Char → Option (List Char)
  | [] => none
  | c :: cs => if c = t then some cs else dropThroughChar t cs

/-- Remainder after the first occurrence of the two-character sequence `*/`. -/
def dropThroughStarSlash : List Char → Option (List Char)
  | [] => none
  | c :: cs =>
    if c = '*' ∧ cs.head? = some '/' then some cs.tail else dropThroughStarSlash cs

/-- First `re.sub` pass of the normalizer (fueled; one unit per scan step). -/
def p1 : Nat → List Char → List Char
  | 0, _ => []
  | _ + 1, [] => []
  | n + 1, c :: cs =>
    if c = '-' ∧ cs.head? = some '-' then
      match dropThroughChar '\n' cs.tail with
      | some rest => ' ' :: p1 n rest
      | none => c :: p1 n cs
    else if c = '/' ∧ cs.head? = some '*' then
      match dropThroughStarSlash cs.tail with
      | some rest => ' ' :: p1 n rest
      | none => c :: p1 n cs
    else if c = '\n' ∨ c = '\t' then ' ' :: p1 n cs
    else c :: p1 n cs

/-- `re.sub(r'\s+', ' ', ·)`: collapse every whitespace run to one space.
The flag records whether the previous character belonged to a run whose
replacement space was already emitted. -/
def collapseGo : Bool → List Char → List Char
  | _, [] => []
  | inRun, c :: cs =>
    if isPySpace c then
      if inRun then collapseGo true cs else ' ' :: collapseGo true cs
    else c :: collapseGo false cs

/-- The normalizer with explicit fuel for the comment-stripping pass. -/
def normalizeF (n : Nat) (s : String) : String :=
  ⟨pyStrip (collapseGo false (p1 n s.data))⟩

/-- The normalizer of src/main.py lines 13-14. -/
def normalize (s : String) : String := normalizeF s.data.length s

/-- Comment-stripping pass as described by the specification: identical to
`p1` except that a line comment reaching the end of the input without a
terminating newline is also removed ("from `--` to the end of their
line").  Used to compare the code's normalizer against the spec's words. -/
def p1spec : Nat → List Char → List Char
  | 0, _ => []
  | _ + 1, [] => []
  | n + 1, c :: cs =>
    if c = '-' ∧ cs.head? = some '-' then
      match dropThroughChar '\n' cs.tail with
      | some rest => ' ' :: p1spec n rest
      | none => [' ']
    else if c = '/' ∧ cs.head? = some '*' then
      match dropThroughStarSlash cs.tail with
      | some rest => ' ' :: p1spec n rest
      | none => c :: p1spec n cs
    else if c = '\n' ∨ c = '\t' then ' ' :: p1spec n cs
    else c :: p1spec n cs

/-- The normal form described by the specification (§4.1): like
`normalize` but with end-of-input-terminated line comments removed too. -/
def normSpec (s : String) : String :=
  ⟨pyStrip (collapseGo false (p1spec s.data.length s.data))⟩

/-! ## Generic findall scanner

`re.findall` semantics: try a match at the current position; on success
record the groups and resume after the match, on failure advance one
character.  `att` is the anchored match attempt, returning the extracted
groups and the remainder after the match. -/

def scanF {α : Type} (att : List Char → Option (α × List Char)) :
    Nat → List Char → List α
  | 0, _ => []
  | n + 1, cs =>
    match att cs with
    | some (a, rest) => a :: scanF att n rest
    | none =>
      match cs with
      | [] => []
      | _ :: t => scanF att n t

/-! ## Match attempts for the five patterns (src/main.py lines 18-48)

Greedy `\w+` followed by a literal `.` matches exactly the maximal word
run (shrinking the run puts a word character where the dot is required,
so backtracking inside the run can never succeed); hence each `\w+` is
embedded as `takeWhile isWordChar`. -/

/-- Anchored match of `(\w+)\.(\w+)\.(\w+)` (line 18).  A word run
followed by `.` is written as the `takeWhile`/`dropWhile` split with a
`head?` test on the remainder. -/
def tripleAtt (cs : List Char) : Option ((String × String × String) × List Char) :=
  let w1 := cs.takeWhile isWordChar
  let r1 := cs.dropWhile isWordChar
  if w1 = [] ∨ r1.head? ≠ some '.' then none else
  let w2 := r1.tail.takeWhile isWordChar
  let r3 := r1.tail.dropWhile isWordChar
  if w2 = [] ∨ r3.head? ≠ some '.' then none else
  let w3 := r3.tail.takeWhile isWordChar
  let r5 := r3.tail.dropWhile isWordChar
  if w3 = [] then none else some ((⟨w1⟩, ⟨w2⟩, ⟨w3⟩), r5)

/-- Anchored match of `(\w+)\.(\w+)` (line 22). -/
def pairAtt (cs : List Char) : Option ((String × String) × List Char) :=
  let w1 := cs.takeWhile isWordChar
  let r1 := cs.dropWhile isWordChar
  if w1 = [] ∨ r1.head? ≠ some '.' then none else
  let w2 := r1.tail.takeWhile isWordChar
  let r3 := r1.tail.dropWhile isWordChar
  if w2 = [] then none else some ((⟨w1⟩, ⟨w2⟩), r3)

/-- Case-insensitive literal match (re.IGNORECASE on an ASCII-letter
pattern); returns the remainder after the literal. -/
def ciMatch : List Char → List Char → Option (List Char)
  | [], cs => some cs
  | _ :: _, [] => none
  | k :: ks, c :: cs => if c.toLower = k then ciMatch ks cs else none

def fromKw : List Char := ['f', 'r', 'o', 'm']
def joinKw : List Char := ['j', 'o', 'i', 'n']

/-- Anchored match of `KW\s+(\w+\.)?(\w+)` with `re.IGNORECASE`
(lines 26 and 30).  `\s+` matches the maximal whitespace run: a shorter
run would put a whitespace character where `\w` is required.  The
optional group `(\w+\.)?` is taken when a word run followed by `.` and a
further word character is present; otherwise it is skipped and the
second group is the first word run (Python returns `''` for the
unmatched group). -/
def fjAtt (kw : List Char) (cs : List Char) : Option ((String × String) × List Char) :=
  match ciMatch kw cs with
  | none => none
  | some r0 =>
    let sp := r0.takeWhile isPySpace
    let r1 := r0.dropWhile isPySpace
    if sp = [] then none else
    let w := r1.takeWhile isWordChar
    let r2 := r1.dropWhile isWordChar
    if w = [] then none else
    let w2 := r2.tail.takeWhile isWordChar
    let r4 := r2.tail.dropWhile isWordChar
    if r2.head? = some '.' ∧ w2 ≠ [] then some ((⟨w ++ ['.']⟩, ⟨w2⟩), r4)
    else some (("", ⟨w⟩), r2)

/-- Does `\s+FROM` (case-insensitive) match a prefix of `cs`?  If so,
return the remainder after `FROM`.  Only the maximal whitespace run can
precede `FROM`: a shorter run leaves a whitespace character where `f` is
required. -/
def spacesFrom (cs : List Char) : Option (List Char) :=
  let sp := cs.takeWhile isPySpace
  let r := cs.dropWhile isPySpace
  if sp = [] then none else ciMatch fromKw r

/-- Non-greedy search for `(.*?)\s+FROM`: extend the middle one character
at a time (never across a newline, since `.` does not match `\n`),
checking for `\s+FROM` before each extension.  Returns the middle
(= group 1) and the remainder after `FROM`. -/
def midSearch (acc rest : List Char) : Option (List Char × List Char) :=
  match spacesFrom rest with
  | some after => some (acc.reverse, after)
  | none =>
    match rest with
    | [] => none
    | c :: t => if c = '\n' then none else midSearch (c :: acc) t

/-- Backtracking of the initial `\s+` of the SELECT pattern: the run
length is tried greedily from longest (`k = sp.length`) down to 1; for
each length the non-greedy middle search runs on the remaining text. -/
def selK : Nat → List Char → List Char → Option (List Char × List Char)
  | 0, _, _ => none
  | k + 1, sp, r1 =>
    match midSearch [] (sp.drop (k + 1) ++ r1) with
    | some res => some res
    | none => selK k sp r1

/-- Anchored match of `SELECT\s+(.*?)\s+FROM` with `re.IGNORECASE`
(line 34); yields group 1 and the remainder after `FROM`. -/
def selAtt (cs : List Char) : Option (List Char × List Char) :=
  match ciMatch ['s', 'e', 'l', 'e', 'c', 't'] cs with
  | none => none
  | some r0 =>
    let sp := r0.takeWhile isPySpace
    let r1 := r0.dropWhile isPySpace
    if sp = [] then none else selK sp.length sp r1

/-- `re.search(r'(?:(\w+)\.)?(\w+)(?:\s+[aA][sS]\s+(\w+))?', col)` and
extraction of group 2 (lines 44-47).  The leftmost match starts at the
first word character; group 2 is the word after the dot when the
optional qualifier matches, else the first word run.  The AS-alias group
never influences group 2 and is discarded by the code. -/
def colAtt (frag : List Char) : Option String :=
  let t := frag.dropWhile (fun c => !isWordChar c)
  let w := t.takeWhile isWordChar
  let r := t.dropWhile isWordChar
  if w = [] then none else
  let w2 := r.tail.takeWhile isWordChar
  if r.head? = some '.' ∧ w2 ≠ [] then some ⟨w2⟩ else some ⟨w⟩

/-- The four reserved words of the false-positive filters (lines 48, 77, 85). -/
def reservedUpper : List String := ["SELECT", "FROM", "WHERE", "JOIN"]

/-- SELECT-list column extraction (lines 37-49): only the first
`SELECT ... FROM` span is inspected; its contents are split on `,`, each
fragment stripped, group 2 of the column regex taken, and reserved words
discarded. -/
def selectColumnsF (n : Nat) (cs : List Char) : List String :=
  match (scanF selAtt n cs).head? with
  | none => []
  | some mid =>
    (mid.splitOn ',').filterMap fun frag =>
      match colAtt (pyStrip frag) with
      | none => none
      | some col => if upperStr col ∈ reservedUpper then none else some col

/-! ## Catalog and per-file aggregation (src/main.py lines 52-95) -/

/-- The result dict of `extract_sql_components` / `process_sql_folder`:
three identifier sets plus the ordered relationship list. -/
structure Catalog where
  database : Finset String
  table : Finset String
  column : Finset String
  relationships : List (String × String × String)
  deriving DecidableEq

def emptyCatalog : Catalog := ⟨∅, ∅, ∅, []⟩

/-- Loop body for `db_table_column_matches` (lines 60-64). -/
def tripleStep (cat : Catalog) (x : String × String × String) : Catalog :=
  { database := insert x.1 cat.database
    table := insert x.2.1 cat.table
    column := insert x.2.2 cat.column
    relationships := cat.relationships ++ [x] }

/-- Loop body for `table_column_matches` (lines 67-73): a pair whose
first identifier is already a known database is skipped. -/
def pairStep (cat : Catalog) (x : String × String) : Catalog :=
  if x.1 ∈ cat.database then cat
  else
    { cat with
      table := insert x.1 cat.table
      column := insert x.2 cat.column
      relationships := cat.relationships ++ [("", x.1, x.2)] }

/-- Loop body for FROM/JOIN matches (lines 76-89): reserved table tokens
are discarded; a non-empty `db_prefix` contributes `rstrip('.')` of
itself to the database set. -/
def fjStep (cat : Catalog) (x : String × String) : Catalog :=
  if upperStr x.2 ∈ reservedUpper then cat
  else
    { cat with
      table := insert x.2 cat.table
      database := if x.1 ≠ "" then insert (rstripDot x.1) cat.database else cat.database }

/-- Loop body for SELECT-list columns (lines 92-93). -/
def selStep (cat : Catalog) (c : String) : Catalog :=
  { cat with column := insert c cat.column }

/-- The aggregation of the five passes' outputs, in source order. -/
def aggregate (ts : List (String × String × String)) (ps fs js : List (String × String))
    (cols : List String) : Catalog :=
  cols.foldl selStep
    (js.foldl fjStep
      (fs.foldl fjStep
        (ps.foldl pairStep
          (ts.foldl tripleStep emptyCatalog))))

/-! ## The five passes over normalized text -/

def triplePass (content : String) : List (String × String × String) :=
  let cs := (normalize content).data
  scanF tripleAtt cs.length cs

def pairPass (content : String) : List (String × String) :=
  let cs := (normalize content).data
  scanF pairAtt cs.length cs

def fromPass (content : String) : List (String × String) :=
  let cs := (normalize content).data
  scanF (fjAtt fromKw) cs.length cs

def joinPass (content : String) : List (String × String) :=
  let cs := (normalize content).data
  scanF (fjAtt joinKw) cs.length cs

def selectPass (content : String) : List String :=
  let cs := (normalize content).data
  selectColumnsF cs.length cs

/-- `extract_sql_components` (src/main.py lines 7-95), as a function of
the file's text (the file read of lines 9-10 is the I/O collaborator). -/
def extract_sql_components (content : String) : Catalog :=
  aggregate (triplePass content) (pairPass content) (fromPass content)
    (joinPass content) (selectPass content)

/-- `extract_sql_components` with an explicit fuel budget for every
scanning pass; used to state that the engine terminates on every input. -/
def extractF (n : Nat) (content : String) : Catalog :=
  let cs := (normalizeF n content).data
  aggregate (scanF tripleAtt n cs) (scanF pairAtt n cs)
    (scanF (fjAtt fromKw) n cs) (scanF (fjAtt joinKw) n cs)
    (selectColumnsF n cs)

/-- Database-name set produced by the triple pass, evaluated globally. -/
def tripleDbs (content : String) : Finset String :=
  ((triplePass content).map (·.1)).toFinset

/-- Pair matches surviving the disambiguation filter of lines 68-69. -/
def survivingPairs (content : String) : List (String × String) :=
  (pairPass content).filter fun x => decide (x.1 ∉ tripleDbs content)

/-! ## Cross-file merge (src/main.py lines 97-119) -/

/-- Merge body of the loop at lines 109-117: set `update`, list `extend`. -/
def mergeStep (acc : Catalog) (content : String) : Catalog :=
  let fc := extract_sql_components content
  { database := acc.database ∪ fc.database
    table := acc.table ∪ fc.table
    column := acc.column ∪ fc.column
    relationships := acc.relationships ++ fc.relationships }

/-- `process_sql_folder`, as a function of the file contents in
processing order (directory listing and file reads are collaborators). -/
def process_sql_folder (files : List String) : Catalog :=
  files.foldl mergeStep emptyCatalog

/-! ## Derived report view (src/main.py lines 182-185) -/

/-- `table_db_pairs`: unique (table, database) pairs from relationship
entries with non-empty database and table fields. -/
def table_db_pairs (cat : Catalog) : Finset (String × String) :=
  cat.relationships.foldl
    (fun s r => if r.1 ≠ "" ∧ r.2.1 ≠ "" then insert (r.2.1, r.1) s else s) ∅

/-! ## Consumption and fuel lemmas

Each scan step consumes at least one character, so fuel equal to the
input length always suffices; the lemmas below make that precise. -/

lemma length_dropWhile_le (p : Char → Bool) (l : List Char) :
    (l.dropWhile p).length ≤ l.length := by
  induction l with
  | nil => simp
  | cons c cs ih =>
    rw [List.dropWhile_cons]
    split
    · exact Nat.le_trans ih (Nat.le_succ _)
    · exact Nat.le_refl _

lemma length_takeWhile_dropWhile (p : Char → Bool) (l : List Char) :
    (l.takeWhile p).length + (l.dropWhile p).length = l.length := by
  conv_rhs => rw [← List.takeWhile_append_dropWhile p l]
  rw [List.length_append]

lemma dropThroughChar_length (t : Char) :
    ∀ l r : List Char, dropThroughChar t l = some r → r.length < l.length := by
  intro l
  induction l with
  | nil => intro r h; simp [dropThroughChar] at h
  | cons c cs ih =>
    intro r h
    simp only [dropThroughChar] at h
    split at h
    · cases h; simp only [List.length_cons]; omega
    · have := ih r h; simp only [List.length_cons]; omega

lemma dropThroughStarSlash_length :
    ∀ l r : List Char, dropThroughStarSlash l = some r → r.length < l.length := by
  intro l
  induction l with
  | nil => intro r h; simp [dropThroughStarSlash] at h
  | cons c cs ih =>
    intro r h
    simp only [dropThroughStarSlash] at h
    split at h
    · cases h
      have : cs.tail.length ≤ cs.length := by cases cs <;> simp
      simp only [List.length_cons]; omega
    · have := ih r h; simp only [List.length_cons]; omega

lemma ciMatch_length :
    ∀ ks l r : List Char, ciMatch ks l = some r → r.length + ks.length = l.length := by
  intro ks
  induction ks with
  | nil =>
    intro l r h
    simp only [ciMatch, Option.some.injEq] at h
    subst h; simp
  | cons k ks ih =>
    intro l r h
    cases l with
    | nil => simp [ciMatch] at h
    | cons c cs =>
      simp only [ciMatch] at h
      split at h
      · have := ih cs r h; simp only [List.length_cons]; omega
      · exact absurd h (by simp)

lemma length_tail_of_head (l : List Char) (c : Char) (h : l.head? = some c) :
    l.tail.length + 1 = l.length := by
  cases l with
  | nil => simp at h
  | cons x xs => simp

lemma mkStr_ne_empty {w : List Char} (hw : w ≠ []) : (⟨w⟩ : String) ≠ "" := by
  intro hc
  exact hw (by simpa [String.ext_iff] using hc)

lemma tripleAtt_some {cs : List Char} {a : String × String × String} {rest : List Char}
    (h : tripleAtt cs = some (a, rest)) :
    rest.length < cs.length ∧ a.1 ≠ "" ∧ a.2.1 ≠ "" ∧ a.2.2 ≠ "" := by
  simp only [tripleAtt] at h
  split_ifs at h with h1 h2 h3
  push_neg at h1 h2
  obtain ⟨hw1, hd1⟩ := h1
  obtain ⟨hw2, hd2⟩ := h2
  simp only [Option.some.injEq, Prod.mk.injEq] at h
  obtain ⟨ha, hrest⟩ := h
  subst ha
  subst hrest
  refine ⟨?_, mkStr_ne_empty hw1, mkStr_ne_empty hw2, mkStr_ne_empty h3⟩
  have e1 := length_takeWhile_dropWhile isWordChar cs
  have e2 := length_takeWhile_dropWhile isWordChar (cs.dropWhile isWordChar).tail
  have e3 := length_takeWhile_dropWhile isWordChar
    ((cs.dropWhile isWordChar).tail.dropWhile isWordChar).tail
  have l1 := List.length_pos.mpr hw1
  have l2 := List.length_pos.mpr hw2
  have l3 := List.length_pos.mpr h3
  have t1 := length_tail_of_head _ _ hd1
  have t2 := length_tail_of_head _ _ hd2
  omega

lemma pairAtt_some {cs : List Char} {a : String × String} {rest : List Char}
    (h : pairAtt cs = some (a, rest)) :
    rest.length < cs.length ∧ a.1 ≠ "" ∧ a.2 ≠ "" := by
  simp only [pairAtt] at h
  split_ifs at h with h1 h2
  push_neg at h1
  obtain ⟨hw1, hd1⟩ := h1
  simp only [Option.some.injEq, Prod.mk.injEq] at h
  obtain ⟨ha, hrest⟩ := h
  subst ha
  subst hrest
  refine ⟨?_, mkStr_ne_empty hw1, mkStr_ne_empty h2⟩
  have e1 := length_takeWhile_dropWhile isWordChar cs
  have e2 := length_takeWhile_dropWhile isWordChar (cs.dropWhile isWordChar).tail
  have l1 := List.length_pos.mpr hw1
  have l2 := List.length_pos.mpr h2
  have t1 := length_tail_of_head _ _ hd1
  omega

lemma fjAtt_some {kw cs : List Char} {a : String × String} {rest : List Char}
    (hkw : kw ≠ []) (h : fjAtt kw cs = some (a, rest)) :
    rest.length < cs.length ∧ a.2 ≠ "" := by
  cases hci : ciMatch kw cs with
  | none => simp [fjAtt, hci] at h
  | some r0 =>
    simp only [fjAtt, hci] at h
    have hc := ciMatch_length kw cs r0 hci
    have hk : kw.length ≥ 1 := List.length_pos.mpr hkw
    split_ifs at h with h1 h2 h3
    · -- qualified branch
      obtain ⟨hd, hw2⟩ := h3
      simp only [Option.some.injEq, Prod.mk.injEq] at h
      obtain ⟨ha, hrest⟩ := h
      subst ha
      subst hrest
      refine ⟨?_, mkStr_ne_empty hw2⟩
      have e0 := length_takeWhile_dropWhile isPySpace r0
      have e1 := length_takeWhile_dropWhile isWordChar (r0.dropWhile isPySpace)
      have e2 := length_takeWhile_dropWhile isWordChar
        ((r0.dropWhile isPySpace).dropWhile isWordChar).tail
      have l0 := List.length_pos.mpr h1
      have l1 := List.length_pos.mpr h2
      have t1 := length_tail_of_head _ _ hd
      have d2 := length_dropWhile_le isWordChar
        ((r0.dropWhile isPySpace).dropWhile isWordChar).tail
      omega
    · -- unqualified branch
      simp only [Option.some.injEq, Prod.mk.injEq] at h
      obtain ⟨ha, hrest⟩ := h
      subst ha
      subst hrest
      refine ⟨?_, mkStr_ne_empty h2⟩
      have e0 := length_takeWhile_dropWhile isPySpace r0
      have e1 := length_takeWhile_dropWhile isWordChar (r0.dropWhile isPySpace)
      have l0 := List.length_pos.mpr h1
      have l1 := List.length_pos.mpr h2
      omega

lemma spacesFrom_some {cs r : List Char} (h : spacesFrom cs = some r) :
    r.length < cs.length := by
  simp only [spacesFrom] at h
  split_ifs at h with h1
  have hc := ciMatch_length fromKw (cs.dropWhile isPySpace) r h
  have e0 := length_takeWhile_dropWhile isPySpace cs
  have l0 := List.length_pos.mpr h1
  simp only [fromKw, List.length_cons, List.length_nil] at hc
  omega

lemma midSearch_some :
    ∀ (rest acc mid after : List Char), midSearch acc rest = some (mid, after) →
      after.length < rest.length ∨ (after.length < rest.length + acc.length + 1) := by
  intro rest
  induction rest with
  | nil =>
    intro acc mid after h
    simp only [midSearch, spacesFrom] at h
    simp at h
  | cons c t ih =>
    intro acc mid after h
    rw [midSearch] at h
    cases hsf : spacesFrom (c :: t) with
    | some aft =>
      rw [hsf] at h
      simp only [Option.some.injEq, Prod.mk.injEq] at h
      obtain ⟨_, hrest⟩ := h
      subst hrest
      exact Or.inl (spacesFrom_some hsf)
    | none =>
      rw [hsf] at h
      split_ifs at h with hc
      have := ih (c :: acc) mid after h
      right
      simp only [List.length_cons] at this ⊢
      omega

lemma midSearch_length {rest acc mid after : List Char}
    (h : midSearch acc rest = some (mid, after)) :
    after.length ≤ rest.length + acc.length := by
  have := midSearch_some rest acc mid after h
  omega

lemma selK_some :
    ∀ (k : Nat) (sp r1 mid after : List Char), selK k sp r1 = some (mid, after) →
      after.length ≤ sp.length + r1.length := by
  intro k
  induction k with
  | zero => intro sp r1 mid after h; simp [selK] at h
  | succ k ih =>
    intro sp r1 mid after h
    rw [selK] at h
    cases hms : midSearch [] (sp.drop (k + 1) ++ r1) with
    | some res =>
      rw [hms] at h
      obtain ⟨m, aft⟩ := res
      simp only [Option.some.injEq, Prod.mk.injEq] at h
      obtain ⟨hm, haft⟩ := h
      subst hm
      subst haft
      have := midSearch_length hms
      have hd : (sp.drop (k + 1)).length ≤ sp.length := by
        simp [List.length_drop]
      simp only [List.length_append, List.length_nil] at this
      omega
    | none =>
      rw [hms] at h
      exact ih sp r1 mid after h

lemma selAtt_some {cs : List Char} {mid rest : List Char}
    (h : selAtt cs = some (mid, rest)) : rest.length < cs.length := by
  cases hci : ciMatch ['s', 'e', 'l', 'e', 'c', 't'] cs with
  | none => simp [selAtt, hci] at h
  | some r0 =>
    simp only [selAtt, hci] at h
    have hc := ciMatch_length _ cs r0 hci
    split_ifs at h with h1
    have := selK_some _ _ _ _ _ h
    have e0 := length_takeWhile_dropWhile isPySpace r0
    simp only [List.length_cons, List.length_nil] at hc
    omega

/-! ## Generic scanner lemmas -/

lemma scanF_zero {α : Type} (att : List Char → Option (α × List Char)) (cs : List Char) :
    scanF att 0 cs = [] := rfl

lemma scanF_succ {α : Type} (att : List Char → Option (α × List Char)) (n : Nat)
    (cs : List Char) :
    scanF att (n + 1) cs =
      match att cs with
      | some (a, rest) => a :: scanF att n rest
      | none =>
        match cs with
        | [] => []
        | _ :: t => scanF att n t := rfl

lemma att_nil_none {α : Type} {att : List Char → Option (α × List Char)}
    (hcons : ∀ cs a rest, att cs = some (a, rest) → rest.length < cs.length) :
    att [] = none := by
  cases hatt : att [] with
  | none => rfl
  | some pr =>
    obtain ⟨a, rest⟩ := pr
    have := hcons [] a rest hatt
    simp at this

lemma scanF_irrel {α : Type} {att : List Char → Option (α × List Char)}
    (hcons : ∀ cs a rest, att cs = some (a, rest) → rest.length < cs.length) :
    ∀ n m cs, cs.length ≤ n → cs.length ≤ m → scanF att n cs = scanF att m cs := by
  intro n
  induction n with
  | zero =>
    intro m cs hn _
    have : cs = [] := List.length_eq_zero.mp (Nat.le_zero.mp hn)
    subst this
    cases m with
    | zero => rfl
    | succ m => rw [scanF_zero, scanF_succ, att_nil_none hcons]
  | succ n ih =>
    intro m cs hn hm
    cases m with
    | zero =>
      have : cs = [] := List.length_eq_zero.mp (Nat.le_zero.mp hm)
      subst this
      rw [scanF_zero, scanF_succ, att_nil_none hcons]
    | succ m =>
      rw [scanF_succ, scanF_succ]
      cases hatt : att cs with
      | some pr =>
        obtain ⟨a, rest⟩ := pr
        have := hcons cs a rest hatt
        show a :: scanF att n rest = a :: scanF att m rest
        rw [ih m rest (by omega) (by omega)]
      | none =>
        cases cs with
        | nil => rfl
        | cons c t =>
          simp only [List.length_cons] at hn hm
          show scanF att n t = scanF att m t
          exact ih m t (by omega) (by omega)

lemma scanF_mem {α : Type} {att : List Char → Option (α × List Char)} {P : α → Prop}
    (hatt : ∀ cs a rest, att cs = some (a, rest) → P a) :
    ∀ n cs a, a ∈ scanF att n cs → P a := by
  intro n
  induction n with
  | zero => intro cs a h; rw [scanF_zero] at h; simp at h
  | succ n ih =>
    intro cs a h
    rw [scanF_succ] at h
    cases hatt' : att cs with
    | some pr =>
      obtain ⟨a', rest⟩ := pr
      rw [hatt'] at h
      rcases List.mem_cons.mp h with h | h
      · subst h; exact hatt cs a rest hatt'
      · exact ih rest a h
    | none =>
      rw [hatt'] at h
      cases cs with
      | nil => simp at h
      | cons c t => exact ih t a h

/-! ## Fold characterizations of the per-file aggregation -/

lemma tripleFold_char (l : List (String × String × String)) :
    ∀ c : Catalog, l.foldl tripleStep c =
      { database := c.database ∪ (l.map (·.1)).toFinset
        table := c.table ∪ (l.map fun x => x.2.1).toFinset
        column := c.column ∪ (l.map fun x => x.2.2).toFinset
        relationships := c.relationships ++ l } := by
  induction l with
  | nil => intro c; simp
  | cons x xs ih =>
    intro c
    rw [List.foldl_cons, ih]
    simp [tripleStep, Finset.insert_union, Finset.union_insert]

lemma pairFold_char (l : List (String × String)) :
    ∀ c : Catalog, l.foldl pairStep c =
      { database := c.database
        table := c.table ∪
          ((l.filter fun x => decide (x.1 ∉ c.database)).map (·.1)).toFinset
        column := c.column ∪
          ((l.filter fun x => decide (x.1 ∉ c.database)).map (·.2)).toFinset
        relationships := c.relationships ++
          (l.filter fun x => decide (x.1 ∉ c.database)).map fun x => ("", x.1, x.2) } := by
  induction l with
  | nil => intro c; simp
  | cons x xs ih =>
    intro c
    rw [List.foldl_cons]
    by_cases hx : x.1 ∈ c.database
    · have hstep : pairStep c x = c := by simp [pairStep, hx]
      rw [hstep, ih]
      simp [List.filter_cons, hx]
    · have hstep : pairStep c x =
          { c with
            table := insert x.1 c.table
            column := insert x.2 c.column
            relationships := c.relationships ++ [("", x.1, x.2)] } := by
        simp [pairStep, hx]
      rw [hstep, ih]
      simp [List.filter_cons, hx, Finset.insert_union, Finset.union_insert]

lemma fjStep_rels (c : Catalog) (x : String × String) :
    (fjStep c x).relationships = c.relationships := by
  simp only [fjStep]; split_ifs <;> rfl

lemma fjStep_col (c : Catalog) (x : String × String) :
    (fjStep c x).column = c.column := by
  simp only [fjStep]; split_ifs <;> rfl

lemma fjStep_db_mono (c : Catalog) (x : String × String) :
    c.database ⊆ (fjStep c x).database := by
  simp only [fjStep]
  split_ifs <;>
    first
    | exact Finset.Subset.refl _
    | exact Finset.subset_insert _ _

lemma fjStep_tb_mono (c : Catalog) (x : String × String) :
    c.table ⊆ (fjStep c x).table := by
  simp only [fjStep]
  split_ifs <;>
    first
    | exact Finset.Subset.refl _
    | exact Finset.subset_insert _ _

lemma fjFold_rels (l : List (String × String)) :
    ∀ c : Catalog, (l.foldl fjStep c).relationships = c.relationships := by
  induction l with
  | nil => intro c; rfl
  | cons x xs ih => intro c; rw [List.foldl_cons, ih, fjStep_rels]

lemma fjFold_col (l : List (String × String)) :
    ∀ c : Catalog, (l.foldl fjStep c).column = c.column := by
  induction l with
  | nil => intro c; rfl
  | cons x xs ih => intro c; rw [List.foldl_cons, ih, fjStep_col]

lemma fjFold_db_mono (l : List (String × String)) :
    ∀ c : Catalog, c.database ⊆ (l.foldl fjStep c).database := by
  induction l with
  | nil => intro c; exact Finset.Subset.refl _
  | cons x xs ih =>
    intro c
    rw [List.foldl_cons]
    exact (fjStep_db_mono c x).trans (ih (fjStep c x))

lemma fjFold_tb_mono (l : List (String × String)) :
    ∀ c : Catalog, c.table ⊆ (l.foldl fjStep c).table := by
  induction l with
  | nil => intro c; exact Finset.Subset.refl _
  | cons x xs ih =>
    intro c
    rw [List.foldl_cons]
    exact (fjStep_tb_mono c x).trans (ih (fjStep c x))

lemma selFold_rels (l : List String) :
    ∀ c : Catalog, (l.foldl selStep c).relationships = c.relationships := by
  induction l with
  | nil => intro c; rfl
  | cons x xs ih => intro c; rw [List.foldl_cons, ih]; rfl

lemma selFold_db (l : List String) :
    ∀ c : Catalog, (l.foldl selStep c).database = c.database := by
  induction l with
  | nil => intro c; rfl
  | cons x xs ih => intro c; rw [List.foldl_cons, ih]; rfl

lemma selFold_tb (l : List String) :
    ∀ c : Catalog, (l.foldl selStep c).table = c.table := by
  induction l with
  | nil => intro c; rfl
  | cons x xs ih => intro c; rw [List.foldl_cons, ih]; rfl

lemma selFold_col_mono (l : List String) :
    ∀ c : Catalog, c.column ⊆ (l.foldl selStep c).column := by
  induction l with
  | nil => intro c; exact Finset.Subset.refl _
  | cons x xs ih =>
    intro c
    rw [List.foldl_cons]
    exact (Finset.subset_insert _ _).trans (ih (selStep c x))

/-! ## Structure of the extracted catalog -/

lemma extract_rels (content : String) :
    (extract_sql_components content).relationships =
      triplePass content ++ (survivingPairs content).map fun x => ("", x.1, x.2) := by
  unfold extract_sql_components aggregate
  rw [selFold_rels, fjFold_rels, fjFold_rels, pairFold_char, tripleFold_char]
  simp [survivingPairs, tripleDbs, emptyCatalog]
  congr 1

lemma aggregate_triple_mem {ts : List (String × String × String)}
    {ps fs js : List (String × String)} {cols : List String} {x : String × String × String}
    (h : x ∈ ts) :
    x.1 ∈ (aggregate ts ps fs js cols).database ∧
    x.2.1 ∈ (aggregate ts ps fs js cols).table ∧
    x.2.2 ∈ (aggregate ts ps fs js cols).column := by
  unfold aggregate
  have h1 : x.1 ∈ (ts.foldl tripleStep emptyCatalog).database := by
    rw [tripleFold_char]
    simp only [emptyCatalog, Finset.empty_union, List.mem_toFinset, List.mem_map]
    exact ⟨x, h, rfl⟩
  have h2 : x.2.1 ∈ (ts.foldl tripleStep emptyCatalog).table := by
    rw [tripleFold_char]
    simp only [emptyCatalog, Finset.empty_union, List.mem_toFinset, List.mem_map]
    exact ⟨x, h, rfl⟩
  have h3 : x.2.2 ∈ (ts.foldl tripleStep emptyCatalog).column := by
    rw [tripleFold_char]
    simp only [emptyCatalog, Finset.empty_union, List.mem_toFinset, List.mem_map]
    exact ⟨x, h, rfl⟩
  refine ⟨?_, ?_, ?_⟩
  · rw [selFold_db]
    apply fjFold_db_mono
    apply fjFold_db_mono
    rw [pairFold_char]
    exact h1
  · rw [selFold_tb]
    apply fjFold_tb_mono
    apply fjFold_tb_mono
    rw [pairFold_char]
    exact Finset.mem_union_left _ h2
  · apply selFold_col_mono
    rw [fjFold_col, fjFold_col, pairFold_char]
    exact Finset.mem_union_left _ h3

lemma aggregate_pair_mem {ts : List (String × String × String)}
    {ps fs js : List (String × String)} {cols : List String} {x : String × String}
    (hx : x ∈ ps) (hdb : x.1 ∉ (ts.map (·.1)).toFinset) :
    x.1 ∈ (aggregate ts ps fs js cols).table ∧
    x.2 ∈ (aggregate ts ps fs js cols).column := by
  unfold aggregate
  have hc1db : (ts.foldl tripleStep emptyCatalog).database = (ts.map (·.1)).toFinset := by
    rw [tripleFold_char]; simp [emptyCatalog]
  have h' : x ∈ ps.filter
      (fun p => decide (p.1 ∉ (ts.foldl tripleStep emptyCatalog).database)) := by
    rw [List.mem_filter, hc1db]
    exact ⟨hx, by simpa using hdb⟩
  constructor
  · rw [selFold_tb]
    apply fjFold_tb_mono
    apply fjFold_tb_mono
    rw [pairFold_char]
    apply Finset.mem_union_right
    simp only [List.mem_toFinset, List.mem_map]
    exact ⟨x, h', rfl⟩
  · apply selFold_col_mono
    rw [fjFold_col, fjFold_col, pairFold_char]
    apply Finset.mem_union_right
    simp only [List.mem_toFinset, List.mem_map]
    exact ⟨x, h', rfl⟩

lemma survivingPairs_mem {content : String} {x : String × String} :
    x ∈ survivingPairs content ↔ x ∈ pairPass content ∧ x.1 ∉ tripleDbs content := by
  simp [survivingPairs, List.mem_filter]

lemma triplePass_nonempty {content : String} {x : String × String × String}
    (h : x ∈ triplePass content) : x.1 ≠ "" ∧ x.2.1 ≠ "" ∧ x.2.2 ≠ "" :=
  scanF_mem (fun _ _ _ hatt => (tripleAtt_some hatt).2) _ _ _ h

lemma pairPass_nonempty {content : String} {x : String × String}
    (h : x ∈ pairPass content) : x.1 ≠ "" ∧ x.2 ≠ "" :=
  scanF_mem (fun _ _ _ hatt => (pairAtt_some hatt).2) _ _ _ h

/-- Relationship invariant for a per-file catalog: the identifiers of
every relationship entry are recorded in the respective sets, the
database field is empty or recorded, and table/column are non-empty. -/
lemma extract_relInv {content : String} {d t c : String}
    (h : (d, t, c) ∈ (extract_sql_components content).relationships) :
    (d = "" ∨ d ∈ (extract_sql_components content).database) ∧
    t ∈ (extract_sql_components content).table ∧
    c ∈ (extract_sql_components content).column ∧ t ≠ "" ∧ c ≠ "" := by
  rw [extract_rels] at h
  rcases List.mem_append.mp h with h | h
  · have hmem := @aggregate_triple_mem (triplePass content) (pairPass content)
      (fromPass content) (joinPass content) (selectPass content) _ h
    have hne := triplePass_nonempty h
    exact ⟨Or.inr hmem.1, hmem.2.1, hmem.2.2, hne.2.1, hne.2.2⟩
  · rcases List.mem_map.mp h with ⟨p, hp, heq⟩
    rcases survivingPairs_mem.mp hp with ⟨hpp, hpd⟩
    obtain ⟨hd, ht, hc⟩ : "" = d ∧ p.1 = t ∧ p.2 = c := by
      simpa [Prod.ext_iff] using heq
    subst hd; subst ht; subst hc
    have hmem := @aggregate_pair_mem (triplePass content) (pairPass content)
      (fromPass content) (joinPass content) (selectPass content) _ hpp
      (by simpa [tripleDbs] using hpd)
    have hne := pairPass_nonempty hpp
    exact ⟨Or.inl rfl, hmem.1, hmem.2, hne.1, hne.2⟩

/-! ## Cross-file merge structure -/

lemma mergeFold_char (files : List String) :
    ∀ c : Catalog, files.foldl mergeStep c =
      { database := c.database ∪
          (files.map fun f => (extract_sql_components f).database).foldr (· ∪ ·) ∅
        table := c.table ∪
          (files.map fun f => (extract_sql_components f).table).foldr (· ∪ ·) ∅
        column := c.column ∪
          (files.map fun f => (extract_sql_components f).column).foldr (· ∪ ·) ∅
        relationships := c.relationships ++
          (files.map fun f => (extract_sql_components f).relationships).flatten } := by
  induction files with
  | nil => intro c; simp
  | cons f fs ih =>
    intro c
    rw [List.foldl_cons, ih]
    simp [mergeStep, Finset.union_assoc]

lemma process_eq (files : List String) :
    process_sql_folder files =
      { database := (files.map fun f => (extract_sql_components f).database).foldr (· ∪ ·) ∅
        table := (files.map fun f => (extract_sql_components f).table).foldr (· ∪ ·) ∅
        column := (files.map fun f => (extract_sql_components f).column).foldr (· ∪ ·) ∅
        relationships :=
          (files.map fun f => (extract_sql_components f).relationships).flatten } := by
  unfold process_sql_folder
  rw [mergeFold_char]
  simp [emptyCatalog]

lemma mem_foldr_union {β : Type} [DecidableEq β] (l : List (Finset β)) (x : β) :
    x ∈ l.foldr (· ∪ ·) ∅ ↔ ∃ s ∈ l, x ∈ s := by
  induction l with
  | nil => simp
  | cons s ss ih => simp [ih]

/-- Relationship invariant for the merged catalog. -/
lemma process_relInv {files : List String} {d t c : String}
    (h : (d, t, c) ∈ (process_sql_folder files).relationships) :
    (d = "" ∨ d ∈ (process_sql_folder files).database) ∧
    t ∈ (process_sql_folder files).table ∧
    c ∈ (process_sql_folder files).column ∧ t ≠ "" ∧ c ≠ "" := by
  rw [process_eq] at h ⊢
  simp only [List.mem_flatten, List.mem_map] at h
  obtain ⟨l, ⟨f, hf, hl⟩, hmem⟩ := h
  subst hl
  have hinv := extract_relInv hmem
  refine ⟨?_, ?_, ?_, hinv.2.2.2⟩
  · rcases hinv.1 with hd | hd
    · exact Or.inl hd
    · refine Or.inr ?_
      rw [mem_foldr_union]
      exact ⟨_, List.mem_map_of_mem _ hf, hd⟩
  · rw [mem_foldr_union]
    exact ⟨_, List.mem_map_of_mem _ hf, hinv.2.1⟩
  · rw [mem_foldr_union]
    exact ⟨_, List.mem_map_of_mem _ hf, hinv.2.2.1⟩

/-! ## Derived view characterization -/

lemma tdp_fold_mem (rels : List (String × String × String)) :
    ∀ (init : Finset (String × String)) (t d : String),
      ((t, d) ∈ rels.foldl
          (fun s r => if r.1 ≠ "" ∧ r.2.1 ≠ "" then insert (r.2.1, r.1) s else s) init ↔
        (t, d) ∈ init ∨ ∃ c, (d, t, c) ∈ rels ∧ d ≠ "" ∧ t ≠ "") := by
  induction rels with
  | nil => simp
  | cons r rs ih =>
    intro init t d
    rw [List.foldl_cons]
    by_cases hr : r.1 ≠ "" ∧ r.2.1 ≠ ""
    · rw [if_pos hr, ih]
      constructor
      · rintro (hins | ⟨cc, hcc, hd, ht⟩)
        · rcases Finset.mem_insert.mp hins with heq | hinit
          · rw [Prod.mk.injEq] at heq
            obtain ⟨h1, h2⟩ := heq
            subst h1; subst h2
            exact Or.inr ⟨r.2.2, List.mem_cons_self _ _, hr.1, hr.2⟩
          · exact Or.inl hinit
        · exact Or.inr ⟨cc, List.mem_cons_of_mem _ hcc, hd, ht⟩
      · rintro (hinit | ⟨cc, hcc, hd, ht⟩)
        · exact Or.inl (Finset.mem_insert_of_mem hinit)
        · rcases List.mem_cons.mp hcc with heq | hmem
          · subst heq
            exact Or.inl (Finset.mem_insert_self _ _)
          · exact Or.inr ⟨cc, hmem, hd, ht⟩
    · rw [if_neg hr, ih]
      constructor
      · rintro (hinit | ⟨cc, hcc, hd, ht⟩)
        · exact Or.inl hinit
        · exact Or.inr ⟨cc, List.mem_cons_of_mem _ hcc, hd, ht⟩
      · rintro (hinit | ⟨cc, hcc, hd, ht⟩)
        · exact Or.inl hinit
        · rcases List.mem_cons.mp hcc with heq | hmem
          · subst heq
            exact absurd ⟨hd, ht⟩ hr
          · exact Or.inr ⟨cc, hmem, hd, ht⟩

lemma table_db_pairs_mem (cat : Catalog) (t d : String) :
    (t, d) ∈ table_db_pairs cat ↔
      ∃ c, (d, t, c) ∈ cat.relationships ∧ d ≠ "" ∧ t ≠ "" := by
  unfold table_db_pairs
  rw [tdp_fold_mem]
  simp

/-! ## Normalizer: unfolding equations and fuel lemmas -/

lemma p1_zero (l : List Char) : p1 0 l = [] := rfl

lemma p1_nil (n : Nat) : p1 n [] = [] := by cases n <;> rfl

lemma p1_cons (n : Nat) (c : Char) (cs : List Char) :
    p1 (n + 1) (c :: cs) =
      if c = '-' ∧ cs.head? = some '-' then
        match dropThroughChar '\n' cs.tail with
        | some rest => ' ' :: p1 n rest
        | none => c :: p1 n cs
      else if c = '/' ∧ cs.head? = some '*' then
        match dropThroughStarSlash cs.tail with
        | some rest => ' ' :: p1 n rest
        | none => c :: p1 n cs
      else if c = '\n' ∨ c = '\t' then ' ' :: p1 n cs
      else c :: p1 n cs := rfl

lemma p1spec_nil (n : Nat) : p1spec n [] = [] := by cases n <;> rfl

lemma p1spec_cons (n : Nat) (c : Char) (cs : List Char) :
    p1spec (n + 1) (c :: cs) =
      if c = '-' ∧ cs.head? = some '-' then
        match dropThroughChar '\n' cs.tail with
        | some rest => ' ' :: p1spec n rest
        | none => [' ']
      else if c = '/' ∧ cs.head? = some '*' then
        match dropThroughStarSlash cs.tail with
        | some rest => ' ' :: p1spec n rest
        | none => c :: p1spec n cs
      else if c = '\n' ∨ c = '\t' then ' ' :: p1spec n cs
      else c :: p1spec n cs := rfl

lemma tail_length_of_ne_nil (cs : List Char) (h : cs ≠ []) :
    cs.tail.length + 1 = cs.length := by
  cases cs with
  | nil => exact absurd rfl h
  | cons x xs => simp

lemma p1_irrel : ∀ n m l, l.length ≤ n → l.length ≤ m → p1 n l = p1 m l := by
  intro n
  induction n with
  | zero =>
    intro m l hn _
    have : l = [] := List.length_eq_zero.mp (Nat.le_zero.mp hn)
    subst this
    rw [p1_zero, p1_nil]
  | succ n ih =>
    intro m l hn hm
    cases l with
    | nil => rw [p1_nil, p1_nil]
    | cons c cs =>
      cases m with
      | zero => simp at hm
      | succ m =>
        rw [p1_cons, p1_cons]
        simp only [List.length_cons] at hn hm
        by_cases h1 : c = '-' ∧ cs.head? = some '-'
        · rw [if_pos h1, if_pos h1]
          have hne : cs ≠ [] := by intro he; rw [he] at h1; simp at h1
          have ht := tail_length_of_ne_nil cs hne
          cases hd : dropThroughChar '\n' cs.tail with
          | some rest =>
            have hlen := dropThroughChar_length '\n' cs.tail rest hd
            show ' ' :: p1 n rest = ' ' :: p1 m rest
            rw [ih m rest (by omega) (by omega)]
          | none =>
            show c :: p1 n cs = c :: p1 m cs
            rw [ih m cs (by omega) (by omega)]
        · rw [if_neg h1, if_neg h1]
          by_cases h2 : c = '/' ∧ cs.head? = some '*'
          · rw [if_pos h2, if_pos h2]
            have hne : cs ≠ [] := by intro he; rw [he] at h2; simp at h2
            have ht := tail_length_of_ne_nil cs hne
            cases hd : dropThroughStarSlash cs.tail with
            | some rest =>
              have hlen := dropThroughStarSlash_length cs.tail rest hd
              show ' ' :: p1 n rest = ' ' :: p1 m rest
              rw [ih m rest (by omega) (by omega)]
            | none =>
              show c :: p1 n cs = c :: p1 m cs
              rw [ih m cs (by omega) (by omega)]
          · rw [if_neg h2, if_neg h2]
            by_cases h3 : c = '\n' ∨ c = '\t'
            · rw [if_pos h3, if_pos h3, ih m cs (by omega) (by omega)]
            · rw [if_neg h3, if_neg h3, ih m cs (by omega) (by omega)]

lemma p1spec_irrel : ∀ n m l, l.length ≤ n → l.length ≤ m → p1spec n l = p1spec m l := by
  intro n
  induction n with
  | zero =>
    intro m l hn _
    have : l = [] := List.length_eq_zero.mp (Nat.le_zero.mp hn)
    subst this
    rw [p1spec_nil]
    cases m <;> rfl
  | succ n ih =>
    intro m l hn hm
    cases l with
    | nil => rw [p1spec_nil, p1spec_nil]
    | cons c cs =>
      cases m with
      | zero => simp at hm
      | succ m =>
        rw [p1spec_cons, p1spec_cons]
        simp only [List.length_cons] at hn hm
        by_cases h1 : c = '-' ∧ cs.head? = some '-'
        · rw [if_pos h1, if_pos h1]
          have hne : cs ≠ [] := by intro he; rw [he] at h1; simp at h1
          have ht := tail_length_of_ne_nil cs hne
          cases hd : dropThroughChar '\n' cs.tail with
          | some rest =>
            have hlen := dropThroughChar_length '\n' cs.tail rest hd
            show ' ' :: p1spec n rest = ' ' :: p1spec m rest
            rw [ih m rest (by omega) (by omega)]
          | none => rfl
        · rw [if_neg h1, if_neg h1]
          by_cases h2 : c = '/' ∧ cs.head? = some '*'
          · rw [if_pos h2, if_pos h2]
            have hne : cs ≠ [] := by intro he; rw [he] at h2; simp at h2
            have ht := tail_length_of_ne_nil cs hne
            cases hd : dropThroughStarSlash cs.tail with
            | some rest =>
              have hlen := dropThroughStarSlash_length cs.tail rest hd
              show ' ' :: p1spec n rest = ' ' :: p1spec m rest
              rw [ih m rest (by omega) (by omega)]
            | none =>
              show c :: p1spec n cs = c :: p1spec m cs
              rw [ih m cs (by omega) (by omega)]
          · rw [if_neg h2, if_neg h2]
            by_cases h3 : c = '\n' ∨ c = '\t'
            · rw [if_pos h3, if_pos h3, ih m cs (by omega) (by omega)]
            · rw [if_neg h3, if_neg h3, ih m cs (by omega) (by omega)]

lemma p1_length_le : ∀ n l, (p1 n l).length ≤ l.length := by
  intro n
  induction n with
  | zero => intro l; rw [p1_zero]; simp
  | succ n ih =>
    intro l
    cases l with
    | nil => rw [p1_nil]
    | cons c cs =>
      rw [p1_cons]
      by_cases h1 : c = '-' ∧ cs.head? = some '-'
      · rw [if_pos h1]
        have hne : cs ≠ [] := by intro he; rw [he] at h1; simp at h1
        have ht := tail_length_of_ne_nil cs hne
        cases hd : dropThroughChar '\n' cs.tail with
        | some rest =>
          have hlen := dropThroughChar_length '\n' cs.tail rest hd
          have := ih rest
          show (' ' :: p1 n rest).length ≤ (c :: cs).length
          simp only [List.length_cons]
          omega
        | none =>
          have := ih cs
          show (c :: p1 n cs).length ≤ (c :: cs).length
          simp only [List.length_cons]
          omega
      · rw [if_neg h1]
        by_cases h2 : c = '/' ∧ cs.head? = some '*'
        · rw [if_pos h2]
          have hne : cs ≠ [] := by intro he; rw [he] at h2; simp at h2
          have ht := tail_length_of_ne_nil cs hne
          cases hd : dropThroughStarSlash cs.tail with
          | some rest =>
            have hlen := dropThroughStarSlash_length cs.tail rest hd
            have := ih rest
            show (' ' :: p1 n rest).length ≤ (c :: cs).length
            simp only [List.length_cons]
            omega
          | none =>
            have := ih cs
            show (c :: p1 n cs).length ≤ (c :: cs).length
            simp only [List.length_cons]
            omega
        · rw [if_neg h2]
          have := ih cs
          by_cases h3 : c = '\n' ∨ c = '\t'
          · rw [if_pos h3]
            simp only [List.length_cons]
            omega
          · rw [if_neg h3]
            simp only [List.length_cons]
            omega

lemma collapseGo_length_le : ∀ (l : List Char) (b : Bool),
    (collapseGo b l).length ≤ l.length := by
  intro l
  induction l with
  | nil => intro b; simp [collapseGo]
  | cons c cs ih =>
    intro b
    have hunfold : collapseGo b (c :: cs) =
        if isPySpace c then
          (if b then collapseGo true cs else ' ' :: collapseGo true cs)
        else c :: collapseGo false cs := rfl
    rw [hunfold]
    split_ifs with hc hb
    · have := ih true; simp only [List.length_cons]; omega
    · have := ih true; simp only [List.length_cons]; omega
    · have := ih false; simp only [List.length_cons]; omega

lemma pyStrip_length_le (l : List Char) : (pyStrip l).length ≤ l.length := by
  unfold pyStrip
  have h1 := length_dropWhile_le isPySpace l
  have h2 := length_dropWhile_le isPySpace (l.dropWhile isPySpace).reverse
  simp only [List.length_reverse] at h2 ⊢
  omega

lemma normalize_length_le (s : String) : (normalize s).data.length ≤ s.data.length := by
  show (pyStrip (collapseGo false (p1 s.data.length s.data))).length ≤ s.data.length
  have h1 := p1_length_le s.data.length s.data
  have h2 := collapseGo_length_le (p1 s.data.length s.data) false
  have h3 := pyStrip_length_le (collapseGo false (p1 s.data.length s.data))
  omega

/-! ## Normalizer: the code against the specification's wording -/

lemma head?_append_keep (cs : List Char) (x y : Char) (h : cs.head? = some y) :
    (cs ++ [x]).head? = some y := by
  cases cs <;> simp_all

lemma dropThroughChar_nl_some :
    ∀ l r : List Char, dropThroughChar '\n' l = some r →
      dropThroughChar '\n' (l ++ ['\n']) = some (r ++ ['\n']) := by
  intro l
  induction l with
  | nil => intro r h; simp [dropThroughChar] at h
  | cons c cs ih =>
    intro r h
    rw [List.cons_append]
    simp only [dropThroughChar] at h ⊢
    split_ifs at h ⊢ with hc
    · cases h; rfl
    · exact ih r h

lemma dropThroughChar_nl_none :
    ∀ l : List Char, dropThroughChar '\n' l = none →
      dropThroughChar '\n' (l ++ ['\n']) = some [] := by
  intro l
  induction l with
  | nil => intro _; simp [dropThroughChar]
  | cons c cs ih =>
    intro h
    rw [List.cons_append]
    simp only [dropThroughChar] at h ⊢
    split_ifs at h ⊢ with hc
    · exact ih h

lemma dropThroughStarSlash_append_nl :
    ∀ l : List Char, dropThroughStarSlash (l ++ ['\n']) =
      (dropThroughStarSlash l).map (· ++ ['\n']) := by
  intro l
  induction l with
  | nil => rfl
  | cons c cs ih =>
    rw [List.cons_append]
    simp only [dropThroughStarSlash]
    by_cases hc : c = '*' ∧ cs.head? = some '/'
    · have hne : cs ≠ [] := by intro he; rw [he] at hc; simp at hc
      have hc' : c = '*' ∧ (cs ++ ['\n']).head? = some '/' :=
        ⟨hc.1, head?_append_keep cs '\n' '/' hc.2⟩
      rw [if_pos hc', if_pos hc]
      have htail : (cs ++ ['\n']).tail = cs.tail ++ ['\n'] := by
        cases cs with
        | nil => exact absurd rfl hne
        | cons d ds => simp
      rw [htail]
      rfl
    · have hc' : ¬(c = '*' ∧ (cs ++ ['\n']).head? = some '/') := by
        intro hcon
        apply hc
        refine ⟨hcon.1, ?_⟩
        cases cs with
        | nil => simpa using hcon.2
        | cons d ds => simpa using hcon.2
      rw [if_neg hc', if_neg hc]
      exact ih

lemma p1_append_nl :
    ∀ n l, l.length < n →
      p1 n (l ++ ['\n']) = p1spec n l ++ [' '] ∨ p1 n (l ++ ['\n']) = p1spec n l := by
  intro n
  induction n with
  | zero => intro l h; exact absurd h (Nat.not_lt_zero _)
  | succ n ih =>
    intro l h
    cases l with
    | nil =>
      left
      rw [List.nil_append, p1spec_nil, p1_cons]
      rw [if_neg (by decide), if_neg (by decide), if_pos (by decide), p1_nil]
      rfl
    | cons c cs =>
      have hcs : cs.length < n := by simpa using h
      rw [List.cons_append, p1_cons, p1spec_cons]
      by_cases h1 : c = '-' ∧ cs.head? = some '-'
      · have hne : cs ≠ [] := by intro he; rw [he] at h1; simp at h1
        have h1' : c = '-' ∧ (cs ++ ['\n']).head? = some '-' :=
          ⟨h1.1, head?_append_keep cs '\n' '-' h1.2⟩
        rw [if_pos h1', if_pos h1]
        have htail : (cs ++ ['\n']).tail = cs.tail ++ ['\n'] := by
          cases cs with
          | nil => exact absurd rfl hne
          | cons d ds => simp
        rw [htail]
        have ht := tail_length_of_ne_nil cs hne
        cases hd : dropThroughChar '\n' cs.tail with
        | some rest =>
          rw [dropThroughChar_nl_some _ _ hd]
          have hlen := dropThroughChar_length '\n' cs.tail rest hd
          rcases ih rest (by omega) with h2 | h2
          · left
            show ' ' :: p1 n (rest ++ ['\n']) = (' ' :: p1spec n rest) ++ [' ']
            rw [h2]
            rfl
          · right
            show ' ' :: p1 n (rest ++ ['\n']) = ' ' :: p1spec n rest
            rw [h2]
        | none =>
          rw [dropThroughChar_nl_none _ hd]
          right
          show ' ' :: p1 n [] = [' ']
          rw [p1_nil]
      · have h1' : ¬(c = '-' ∧ (cs ++ ['\n']).head? = some '-') := by
          intro hcon
          apply h1
          refine ⟨hcon.1, ?_⟩
          cases cs with
          | nil => simpa using hcon.2
          | cons d ds => simpa using hcon.2
        rw [if_neg h1', if_neg h1]
        by_cases h2 : c = '/' ∧ cs.head? = some '*'
        · have hne : cs ≠ [] := by intro he; rw [he] at h2; simp at h2
          have h2' : c = '/' ∧ (cs ++ ['\n']).head? = some '*' :=
            ⟨h2.1, head?_append_keep cs '\n' '*' h2.2⟩
          rw [if_pos h2', if_pos h2]
          have htail : (cs ++ ['\n']).tail = cs.tail ++ ['\n'] := by
            cases cs with
            | nil => exact absurd rfl hne
            | cons d ds => simp
          rw [htail, dropThroughStarSlash_append_nl]
          have ht := tail_length_of_ne_nil cs hne
          cases hd : dropThroughStarSlash cs.tail with
          | some rest =>
            have hlen := dropThroughStarSlash_length cs.tail rest hd
            rcases ih rest (by omega) with h3 | h3
            · left
              show ' ' :: p1 n (rest ++ ['\n']) = (' ' :: p1spec n rest) ++ [' ']
              rw [h3]
              rfl
            · right
              show ' ' :: p1 n (rest ++ ['\n']) = ' ' :: p1spec n rest
              rw [h3]
          | none =>
            rcases ih cs (by omega) with h3 | h3
            · left
              show c :: p1 n (cs ++ ['\n']) = (c :: p1spec n cs) ++ [' ']
              rw [h3]
              rfl
            · right
              show c :: p1 n (cs ++ ['\n']) = c :: p1spec n cs
              rw [h3]
        · have h2' : ¬(c = '/' ∧ (cs ++ ['\n']).head? = some '*') := by
            intro hcon
            apply h2
            refine ⟨hcon.1, ?_⟩
            cases cs with
            | nil => simpa using hcon.2
            | cons d ds => simpa using hcon.2
          rw [if_neg h2', if_neg h2]
          by_cases h3 : c = '\n' ∨ c = '\t'
          · rw [if_pos h3, if_pos h3]
            rcases ih cs (by omega) with h4 | h4
            · left
              show ' ' :: p1 n (cs ++ ['\n']) = (' ' :: p1spec n cs) ++ [' ']
              rw [h4]
              rfl
            · right
              show ' ' :: p1 n (cs ++ ['\n']) = ' ' :: p1spec n cs
              rw [h4]
          · rw [if_neg h3, if_neg h3]
            rcases ih cs (by omega) with h4 | h4
            · left
              show c :: p1 n (cs ++ ['\n']) = (c :: p1spec n cs) ++ [' ']
              rw [h4]
              rfl
            · right
              show c :: p1 n (cs ++ ['\n']) = c :: p1spec n cs
              rw [h4]

lemma p1spec_append_nl :
    ∀ n l, l.length < n →
      p1spec n (l ++ ['\n']) = p1spec n l ++ [' '] ∨
        p1spec n (l ++ ['\n']) = p1spec n l := by
  intro n
  induction n with
  | zero => intro l h; exact absurd h (Nat.not_lt_zero _)
  | succ n ih =>
    intro l h
    cases l with
    | nil =>
      left
      rw [List.nil_append, p1spec_nil, p1spec_cons]
      rw [if_neg (by decide), if_neg (by decide), if_pos (by decide), p1spec_nil]
      rfl
    | cons c cs =>
      have hcs : cs.length < n := by simpa using h
      rw [List.cons_append, p1spec_cons, p1spec_cons]
      by_cases h1 : c = '-' ∧ cs.head? = some '-'
      · have hne : cs ≠ [] := by intro he; rw [he] at h1; simp at h1
        have h1' : c = '-' ∧ (cs ++ ['\n']).head? = some '-' :=
          ⟨h1.1, head?_append_keep cs '\n' '-' h1.2⟩
        rw [if_pos h1', if_pos h1]
        have htail : (cs ++ ['\n']).tail = cs.tail ++ ['\n'] := by
          cases cs with
          | nil => exact absurd rfl hne
          | cons d ds => simp
        rw [htail]
        have ht := tail_length_of_ne_nil cs hne
        cases hd : dropThroughChar '\n' cs.tail with
        | some rest =>
          rw [dropThroughChar_nl_some _ _ hd]
          have hlen := dropThroughChar_length '\n' cs.tail rest hd
          rcases ih rest (by omega) with h2 | h2
          · left
            show ' ' :: p1spec n (rest ++ ['\n']) = (' ' :: p1spec n rest) ++ [' ']
            rw [h2]
            rfl
          · right
            show ' ' :: p1spec n (rest ++ ['\n']) = ' ' :: p1spec n rest
            rw [h2]
        | none =>
          rw [dropThroughChar_nl_none _ hd]
          right
          show ' ' :: p1spec n [] = [' ']
          rw [p1spec_nil]
      · have h1' : ¬(c = '-' ∧ (cs ++ ['\n']).head? = some '-') := by
          intro hcon
          apply h1
          refine ⟨hcon.1, ?_⟩
          cases cs with
          | nil => simpa using hcon.2
          | cons d ds => simpa using hcon.2
        rw [if_neg h1', if_neg h1]
        by_cases h2 : c = '/' ∧ cs.head? = some '*'
        · have hne : cs ≠ [] := by intro he; rw [he] at h2; simp at h2
          have h2' : c = '/' ∧ (cs ++ ['\n']).head? = some '*' :=
            ⟨h2.1, head?_append_keep cs '\n' '*' h2.2⟩
          rw [if_pos h2', if_pos h2]
          have htail : (cs ++ ['\n']).tail = cs.tail ++ ['\n'] := by
            cases cs with
            | nil => exact absurd rfl hne
            | cons d ds => simp
          rw [htail, dropThroughStarSlash_append_nl]
          have ht := tail_length_of_ne_nil cs hne
          cases hd : dropThroughStarSlash cs.tail with
          | some rest =>
            have hlen := dropThroughStarSlash_length cs.tail rest hd
            rcases ih rest (by omega) with h3 | h3
            · left
              show ' ' :: p1spec n (rest ++ ['\n']) = (' ' :: p1spec n rest) ++ [' ']
              rw [h3]
              rfl
            · right
              show ' ' :: p1spec n (rest ++ ['\n']) = ' ' :: p1spec n rest
              rw [h3]
          | none =>
            rcases ih cs (by omega) with h3 | h3
            · left
              show c :: p1spec n (cs ++ ['\n']) = (c :: p1spec n cs) ++ [' ']
              rw [h3]
              rfl
            · right
              show c :: p1spec n (cs ++ ['\n']) = c :: p1spec n cs
              rw [h3]
        · have h2' : ¬(c = '/' ∧ (cs ++ ['\n']).head? = some '*') := by
            intro hcon
            apply h2
            refine ⟨hcon.1, ?_⟩
            cases cs with
            | nil => simpa using hcon.2
            | cons d ds => simpa using hcon.2
          rw [if_neg h2', if_neg h2]
          by_cases h3 : c = '\n' ∨ c = '\t'
          · rw [if_pos h3, if_pos h3]
            rcases ih cs (by omega) with h4 | h4
            · left
              show ' ' :: p1spec n (cs ++ ['\n']) = (' ' :: p1spec n cs) ++ [' ']
              rw [h4]
              rfl
            · right
              show ' ' :: p1spec n (cs ++ ['\n']) = ' ' :: p1spec n cs
              rw [h4]
          · rw [if_neg h3, if_neg h3]
            rcases ih cs (by omega) with h4 | h4
            · left
              show c :: p1spec n (cs ++ ['\n']) = (c :: p1spec n cs) ++ [' ']
              rw [h4]
              rfl
            · right
              show c :: p1spec n (cs ++ ['\n']) = c :: p1spec n cs
              rw [h4]

lemma collapseGo_cons (b : Bool) (c : Char) (cs : List Char) :
    collapseGo b (c :: cs) =
      if isPySpace c then
        (if b then collapseGo true cs else ' ' :: collapseGo true cs)
      else c :: collapseGo false cs := rfl

lemma collapseGo_append_space :
    ∀ (l : List Char) (b : Bool), collapseGo b (l ++ [' ']) = collapseGo b l ++ [' '] ∨
      collapseGo b (l ++ [' ']) = collapseGo b l := by
  intro l
  induction l with
  | nil =>
    intro b
    cases b with
    | true => right; rfl
    | false => left; rfl
  | cons c cs ih =>
    intro b
    rw [List.cons_append, collapseGo_cons, collapseGo_cons]
    by_cases hc : isPySpace c
    · rw [if_pos hc, if_pos hc]
      cases b with
      | true =>
        rw [if_pos rfl, if_pos rfl]
        exact ih true
      | false =>
        rw [if_neg (by decide), if_neg (by decide)]
        rcases ih true with h | h
        · left; rw [h]; rfl
        · right; rw [h]
    · rw [if_neg hc, if_neg hc]
      rcases ih false with h | h
      · left; rw [h]; rfl
      · right; rw [h]

lemma pyStrip_append_space (l : List Char) : pyStrip (l ++ [' ']) = pyStrip l := by
  unfold pyStrip
  rw [List.dropWhile_append]
  by_cases h : (l.dropWhile isPySpace).isEmpty
  · rw [if_pos h]
    have he : l.dropWhile isPySpace = [] := by simpa [List.isEmpty_iff] using h
    rw [he]
    rfl
  · rw [if_neg h]
    rw [List.reverse_append]
    show ((List.reverse [' '] ++ (l.dropWhile isPySpace).reverse).dropWhile
      isPySpace).reverse = _
    rw [show List.reverse [' '] = [' '] from rfl]
    rw [show ([' '] ++ (l.dropWhile isPySpace).reverse) =
      ' ' :: (l.dropWhile isPySpace).reverse from rfl]
    rw [List.dropWhile_cons_of_pos (by decide)]

/-- The code's normalizer agrees with the specification's normal form
once a trailing newline is appended to the input. -/
lemma normalize_append_nl (s : String) : normalize (s ++ "\n") = normSpec s := by
  unfold normalize normSpec normalizeF
  have hdata : (s ++ "\n").data = s.data ++ ['\n'] := by
    rw [String.data_append]
  rw [hdata]
  have hlen : (s.data ++ ['\n']).length = s.data.length + 1 := by simp
  rw [hlen]
  rcases p1_append_nl (s.data.length + 1) s.data (by omega) with h | h
  · rw [h, p1spec_irrel (s.data.length + 1) s.data.length s.data (by omega) (by omega)]
    rcases collapseGo_append_space (p1spec s.data.length s.data) false with h2 | h2
    · rw [h2, pyStrip_append_space]
    · rw [h2]
  · rw [h, p1spec_irrel (s.data.length + 1) s.data.length s.data (by omega) (by omega)]

/-- Appending a trailing newline does not change the spec normal form. -/
lemma normSpec_append_nl (s : String) : normSpec (s ++ "\n") = normSpec s := by
  unfold normSpec
  have hdata : (s ++ "\n").data = s.data ++ ['\n'] := by
    rw [String.data_append]
  rw [hdata]
  have hlen : (s.data ++ ['\n']).length = s.data.length + 1 := by simp
  rw [hlen]
  rcases p1spec_append_nl (s.data.length + 1) s.data (by omega) with h | h
  · rw [h, p1spec_irrel (s.data.length + 1) s.data.length s.data (by omega) (by omega)]
    rcases collapseGo_append_space (p1spec s.data.length s.data) false with h2 | h2
    · rw [h2, pyStrip_append_space]
    · rw [h2]
  · rw [h, p1spec_irrel (s.data.length + 1) s.data.length s.data (by omega) (by omega)]

/-! ## Fuel sufficiency for the whole engine -/

lemma selectColumnsF_irrel (n : Nat) (cs : List Char) (h : cs.length ≤ n) :
    selectColumnsF n cs = selectColumnsF cs.length cs := by
  unfold selectColumnsF
  rw [scanF_irrel (fun _ _ _ hs => selAtt_some hs) n cs.length cs h (Nat.le_refl _)]

lemma extractF_eq (content : String) (n : Nat) (hn : content.data.length ≤ n) :
    extractF n content = extract_sql_components content := by
  unfold extractF extract_sql_components triplePass pairPass fromPass joinPass selectPass
  have hnorm : normalizeF n content = normalize content := by
    unfold normalize normalizeF
    rw [p1_irrel n content.data.length content.data hn (Nat.le_refl _)]
  rw [hnorm]
  have hcs : (normalize content).data.length ≤ n :=
    (normalize_length_le content).trans hn
  dsimp only
  rw [scanF_irrel (fun _ _ _ hs => (tripleAtt_some hs).1) n _ _ hcs (Nat.le_refl _)]
  rw [scanF_irrel (fun _ _ _ hs => (pairAtt_some hs).1) n _ _ hcs (Nat.le_refl _)]
  rw [scanF_irrel (fun _ _ _ hs => (fjAtt_some (by decide) hs).1) n _ _ hcs (Nat.le_refl _)]
  rw [scanF_irrel (fun _ _ _ hs => (fjAtt_some (by decide) hs).1) n _ _ hcs (Nat.le_refl _)]
  rw [selectColumnsF_irrel n _ hcs]

/-! ## Discarded pairs contribute nothing -/

lemma tripleFold_db (ts : List (String × String × String)) :
    (ts.foldl tripleStep emptyCatalog).database = (ts.map (·.1)).toFinset := by
  rw [tripleFold_char]
  simp [emptyCatalog]

lemma extract_filtered_pairs (content : String) :
    extract_sql_components content =
      aggregate (triplePass content) (survivingPairs content) (fromPass content)
        (joinPass content) (selectPass content) := by
  unfold extract_sql_components aggregate
  have hps : (pairPass content).foldl pairStep
      ((triplePass content).foldl tripleStep emptyCatalog) =
      (survivingPairs content).foldl pairStep
      ((triplePass content).foldl tripleStep emptyCatalog) := by
    rw [pairFold_char, pairFold_char]
    have hpred : (fun x : String × String =>
        decide (x.1 ∉ ((triplePass content).foldl tripleStep emptyCatalog).database)) =
        fun x : String × String => decide (x.1 ∉ tripleDbs content) := by
      funext x
      rw [decide_eq_decide, tripleFold_db]
      rfl
    rw [hpred]
    unfold survivingPairs
    rw [List.filter_filter]
    simp
  rw [hps]

/-! ## Permutation invariance helpers -/

lemma perm_flatten {α : Type} {l₁ l₂ : List (List α)} (h : l₁.Perm l₂) :
    l₁.flatten.Perm l₂.flatten := by
  induction h with
  | nil => exact List.Perm.refl _
  | cons x _ ih =>
    simp only [List.flatten_cons]
    exact ih.append_left x
  | swap x y l =>
    simp only [List.flatten_cons]
    rw [← List.append_assoc, ← List.append_assoc]
    exact List.perm_append_comm.append_right _
  | trans _ _ ih1 ih2 => exact ih1.trans ih2

/-! ## The claims -/

/-- C1: whenever the pair pass matches X.Y and X is in the database-name
set produced by the triple pass over the whole (normalized) text, the
pair is discarded: no `("", X, Y)` entry is appended, and the whole
catalog equals the one computed from the surviving pairs alone (a
discarded pair adds no identifiers).  In particular, for the input text
`orders.customers.id` the relationship list contains exactly the triple
(orders, customers, id). -/
theorem c1_disambiguation :
    (∀ (content X Y : String), (X, Y) ∈ pairPass content → X ∈ tripleDbs content →
      ("", X, Y) ∉ (extract_sql_components content).relationships) ∧
    (∀ content : String, extract_sql_components content =
      aggregate (triplePass content) (survivingPairs content) (fromPass content)
        (joinPass content) (selectPass content)) ∧
    (extract_sql_components "orders.customers.id").relationships =
      [("orders", "customers", "id")] := by
  refine ⟨?_, extract_filtered_pairs, by decide⟩
  intro content X Y hp hdb hmem
  rw [extract_rels] at hmem
  rcases List.mem_append.mp hmem with h | h
  · exact (triplePass_nonempty h).1 rfl
  · rcases List.mem_map.mp h with ⟨p, hps, heq⟩
    obtain ⟨-, hX, -⟩ : ("" : String) = "" ∧ p.1 = X ∧ p.2 = Y := by
      simpa [Prod.ext_iff] using heq
    rcases survivingPairs_mem.mp hps with ⟨-, hnd⟩
    rw [hX] at hnd
    exact hnd hdb

/-- C1 witness: at `orders.customers.id`, the pair (orders, customers)
is matched, `orders` is a triple-pass database name, and no
`("", orders, customers)` entry appears. -/
theorem c1_disambiguation_witness :
    ("", "orders", "customers") ∉
      (extract_sql_components "orders.customers.id").relationships :=
  c1_disambiguation.1 "orders.customers.id" "orders" "customers" (by decide) (by decide)

/-- C2 (amended): the Normalizer removes line comments, removes block
comments, replaces newlines and tabs by spaces, collapses whitespace
runs and trims — exactly as specified — on every input that ends with a
newline (equivalently, after appending one trailing newline); it always
succeeds and returns the empty string on empty input.  The sole
divergence from the claim as stated is a line comment at the very end
of the input with no terminating newline, which is preserved verbatim
(`normalize "-- c" = "-- c"`), because the code's comment pattern
`--.*?\n` requires the newline. -/
theorem c2_normalizer :
    (∀ t : String, normalize (t ++ "\n") = normSpec (t ++ "\n")) ∧
    normalize "" = "" ∧ normSpec "" = "" ∧ normalize "-- c" = "-- c" :=
  ⟨fun t => (normalize_append_nl t).trans (normSpec_append_nl t).symm,
    rfl, rfl, by decide⟩

/-- C2 witness: a concrete newline-terminated input where the code's
normalizer and the spec's normal form agree. -/
theorem c2_normalizer_witness :
    normalize ("a -- b" ++ "\n") = normSpec ("a -- b" ++ "\n") :=
  c2_normalizer.1 "a -- b"

/-- C2 counterexample to the claim as stated: on the input `"-- c"`
(a line comment not terminated by a newline) the Normalizer returns the
text unchanged, while the spec-described normal form is the empty
string — so "all line comments removed" fails for the code. -/
theorem c2_normalizer_cex :
    normalize "-- c" = "-- c" ∧ normSpec "-- c" = "" ∧
      normalize "-- c" ≠ normSpec "-- c" := by decide

/-- C3: in every merged catalog, `table_db_pairs` holds exactly the
(table, database) pairs of relationship entries with non-empty database
(engine-produced tables are never empty, so the code's extra
`table ≠ ""` test never excludes anything), and each such pair's table
and database are members of the catalog's `table` and `database` sets. -/
theorem c3_table_db_pairs :
    ∀ files : List String,
      (∀ t d : String,
        ((t, d) ∈ table_db_pairs (process_sql_folder files) ↔
          ∃ c, (d, t, c) ∈ (process_sql_folder files).relationships ∧ d ≠ "")) ∧
      (∀ t d : String, (t, d) ∈ table_db_pairs (process_sql_folder files) →
        t ∈ (process_sql_folder files).table ∧
        d ∈ (process_sql_folder files).database) := by
  intro files
  constructor
  · intro t d
    rw [table_db_pairs_mem]
    constructor
    · rintro ⟨c, hc, hd, -⟩
      exact ⟨c, hc, hd⟩
    · rintro ⟨c, hc, hd⟩
      exact ⟨c, hc, hd, (process_relInv hc).2.2.2.1⟩
  · intro t d hmem
    rw [table_db_pairs_mem] at hmem
    obtain ⟨c, hc, hd, -⟩ := hmem
    have hinv := process_relInv hc
    refine ⟨hinv.2.1, ?_⟩
    rcases hinv.1 with h | h
    · exact absurd h hd
    · exact h

/-- C3 witness: for the file `sales.orders.id`, the pair
(orders, sales) is in the view, and its components are members of the
catalog's sets. -/
theorem c3_table_db_pairs_witness :
    "orders" ∈ (process_sql_folder ["sales.orders.id"]).table ∧
    "sales" ∈ (process_sql_folder ["sales.orders.id"]).database :=
  (c3_table_db_pairs ["sales.orders.id"]).2 "orders" "sales" (by decide)

/-- C4: on the scenario query, the engine yields database set exactly
{sales}, tables including orders and customers, columns including id,
total and cust_id, and an unqualified relationship `("", "o", "id")`
with the alias `o` kept literally as the table identifier. -/
theorem c4_scenario :
    (extract_sql_components
        "SELECT o.id, o.total AS amt FROM sales.orders o JOIN sales.customers c ON o.cust_id = c.id;").database =
      {"sales"} ∧
    ({"orders", "customers"} : Finset String) ⊆
      (extract_sql_components
        "SELECT o.id, o.total AS amt FROM sales.orders o JOIN sales.customers c ON o.cust_id = c.id;").table ∧
    ({"id", "total", "cust_id"} : Finset String) ⊆
      (extract_sql_components
        "SELECT o.id, o.total AS amt FROM sales.orders o JOIN sales.customers c ON o.cust_id = c.id;").column ∧
    ("", "o", "id") ∈
      (extract_sql_components
        "SELECT o.id, o.total AS amt FROM sales.orders o JOIN sales.customers c ON o.cust_id = c.id;").relationships := by
  decide

/-- C5: the engine is total.  With any fuel budget of at least the
input length every scanning pass completes and the result is the
canonical catalog (termination); the empty string and binary garbage
yield the empty catalog rather than an error (absence of a match for
every pattern gives an empty result for each pass). -/
theorem c5_totality :
    (∀ (content : String) (n : Nat), content.data.length ≤ n →
      extractF n content = extract_sql_components content) ∧
    extract_sql_components "" = emptyCatalog ∧
    extract_sql_components "\x00\x01<<>>??!!" = emptyCatalog :=
  ⟨fun content n hn => extractF_eq content n hn, by decide, by decide⟩

/-- C5 witness: a concrete fuel budget above the input length yields
the canonical catalog. -/
theorem c5_totality_witness : extractF 100 "a.b" = extract_sql_components "a.b" :=
  c5_totality.1 "a.b" 100 (by decide)

/-- C6: every relationship entry originates from the triple pass or a
surviving pair-pass match — the relationship list is exactly the triple
matches followed by the filtered pair matches — while FROM/JOIN folds
leave relationships and columns unchanged and the SELECT fold leaves
relationships, database and table unchanged. -/
theorem c6_provenance :
    (∀ content : String, (extract_sql_components content).relationships =
      triplePass content ++ (survivingPairs content).map fun x => ("", x.1, x.2)) ∧
    (∀ (l : List (String × String)) (c : Catalog),
      (l.foldl fjStep c).relationships = c.relationships ∧
      (l.foldl fjStep c).column = c.column) ∧
    (∀ (l : List String) (c : Catalog),
      (l.foldl selStep c).relationships = c.relationships ∧
      (l.foldl selStep c).database = c.database ∧
      (l.foldl selStep c).table = c.table) :=
  ⟨extract_rels,
   fun l c => ⟨fjFold_rels l c, fjFold_col l c⟩,
   fun l c => ⟨selFold_rels l c, selFold_db l c, selFold_tb l c⟩⟩

/-- C6 witness: the provenance equation at a concrete input. -/
theorem c6_provenance_witness :
    (extract_sql_components "a.b").relationships =
      triplePass "a.b" ++ (survivingPairs "a.b").map fun x => ("", x.1, x.2) :=
  c6_provenance.1 "a.b"

/-- C7: the merged catalog's sets are the set unions of the per-file
sets and its relationship list is the concatenation of the per-file
lists in processing order; occurrence counts add up (duplicates are
retained). -/
theorem c7_merge :
    ∀ files : List String,
      process_sql_folder files =
        { database :=
            (files.map fun f => (extract_sql_components f).database).foldr (· ∪ ·) ∅
          table :=
            (files.map fun f => (extract_sql_components f).table).foldr (· ∪ ·) ∅
          column :=
            (files.map fun f => (extract_sql_components f).column).foldr (· ∪ ·) ∅
          relationships :=
            (files.map fun f => (extract_sql_components f).relationships).flatten } ∧
      (∀ r : String × String × String,
        (process_sql_folder files).relationships.count r =
          (files.map fun f => (extract_sql_components f).relationships.count r).sum) := by
  intro files
  refine ⟨process_eq files, ?_⟩
  intro r
  rw [process_eq]
  show ((files.map fun f => (extract_sql_components f).relationships).flatten).count r = _
  rw [List.count_flatten, List.map_map]
  rfl

/-- C7 witness: duplicate triples from two identical files are counted
twice in the merged relationship list. -/
theorem c7_merge_witness :
    (process_sql_folder ["a.b", "a.b"]).relationships.count ("", "a", "b") =
      (["a.b", "a.b"].map fun f =>
        (extract_sql_components f).relationships.count ("", "a", "b")).sum :=
  (c7_merge ["a.b", "a.b"]).2 ("", "a", "b")

/-- C8: permuting the input files leaves the merged database, table and
column sets unchanged and permutes the relationship list (equal as
multisets). -/
theorem c8_permutation :
    ∀ f1 f2 : List String, f1.Perm f2 →
      (process_sql_folder f1).database = (process_sql_folder f2).database ∧
      (process_sql_folder f1).table = (process_sql_folder f2).table ∧
      (process_sql_folder f1).column = (process_sql_folder f2).column ∧
      (process_sql_folder f1).relationships.Perm
        (process_sql_folder f2).relationships := by
  intro f1 f2 h
  have hsets : ∀ g : Catalog → Finset String,
      (f1.map fun f => g (extract_sql_components f)).foldr (· ∪ ·) ∅ =
      (f2.map fun f => g (extract_sql_components f)).foldr (· ∪ ·) ∅ := by
    intro g
    ext x
    rw [mem_foldr_union, mem_foldr_union]
    constructor
    · rintro ⟨s, hs, hx⟩
      exact ⟨s, ((h.map _).mem_iff).mp hs, hx⟩
    · rintro ⟨s, hs, hx⟩
      exact ⟨s, ((h.map _).mem_iff).mpr hs, hx⟩
  refine ⟨?_, ?_, ?_, ?_⟩
  · rw [process_eq, process_eq]
    exact hsets (fun cat => cat.database)
  · rw [process_eq, process_eq]
    exact hsets (fun cat => cat.table)
  · rw [process_eq, process_eq]
    exact hsets (fun cat => cat.column)
  · rw [process_eq, process_eq]
    exact perm_flatten (h.map _)

/-- C8 witness: swapping two concrete files preserves the sets and
permutes the relationship list. -/
theorem c8_permutation_witness :
    (process_sql_folder ["a.b", "c.d"]).database =
      (process_sql_folder ["c.d", "a.b"]).database ∧
    (process_sql_folder ["a.b", "c.d"]).table =
      (process_sql_folder ["c.d", "a.b"]).table ∧
    (process_sql_folder ["a.b", "c.d"]).column =
      (process_sql_folder ["c.d", "a.b"]).column ∧
    (process_sql_folder ["a.b", "c.d"]).relationships.Perm
      (process_sql_folder ["c.d", "a.b"]).relationships :=
  c8_permutation ["a.b", "c.d"] ["c.d", "a.b"] (by decide)

/-- C9: in every catalog the engine produces — per-file or merged —
each relationship entry (d, t, c) has d empty or in the database set,
t in the table set, and c in the column set. -/
theorem c9_entry_invariant :
    (∀ (content : String) (d t c : String),
      (d, t, c) ∈ (extract_sql_components content).relationships →
        (d = "" ∨ d ∈ (extract_sql_components content).database) ∧
        t ∈ (extract_sql_components content).table ∧
        c ∈ (extract_sql_components content).column) ∧
    (∀ (files : List String) (d t c : String),
      (d, t, c) ∈ (process_sql_folder files).relationships →
        (d = "" ∨ d ∈ (process_sql_folder files).database) ∧
        t ∈ (process_sql_folder files).table ∧
        c ∈ (process_sql_folder files).column) :=
  ⟨fun _ _ _ _ h =>
    ⟨(extract_relInv h).1, (extract_relInv h).2.1, (extract_relInv h).2.2.1⟩,
   fun _ _ _ _ h =>
    ⟨(process_relInv h).1, (process_relInv h).2.1, (process_relInv h).2.2.1⟩⟩

/-- C9 witness: the invariant at the concrete entry of `a.b`. -/
theorem c9_entry_invariant_witness :
    (("" : String) = "" ∨ "" ∈ (extract_sql_components "a.b").database) ∧
    "a" ∈ (extract_sql_components "a.b").table ∧
    "b" ∈ (extract_sql_components "a.b").column :=
  c9_entry_invariant.1 "a.b" "" "a" "b" (by decide)

/-- C10: reserved-word filtering applies only to FROM/JOIN table tokens
and SELECT-list columns, not to the triple or pair passes: every triple
match and every surviving pair match lands in the relationship list
unfiltered, and for `t.where` the catalog records the column `where`
(case-insensitively a reserved word) together with the unqualified
relationship carrying it. -/
theorem c10_reserved_words :
    ("where" ∈ (extract_sql_components "t.where").column ∧
      ("", "t", "where") ∈ (extract_sql_components "t.where").relationships ∧
      upperStr "where" ∈ reservedUpper) ∧
    (∀ (content : String) (x : String × String × String), x ∈ triplePass content →
      x ∈ (extract_sql_components content).relationships) ∧
    (∀ (content : String) (p : String × String), p ∈ pairPass content →
      p.1 ∉ tripleDbs content →
      ("", p.1, p.2) ∈ (extract_sql_components content).relationships ∧
      p.2 ∈ (extract_sql_components content).column) := by
  refine ⟨by decide, ?_, ?_⟩
  · intro content x h
    rw [extract_rels]
    exact List.mem_append_left _ h
  · intro content p hp hdb
    have hs : p ∈ survivingPairs content := survivingPairs_mem.mpr ⟨hp, hdb⟩
    constructor
    · rw [extract_rels]
      exact List.mem_append_right _ (List.mem_map_of_mem _ hs)
    · exact (@aggregate_pair_mem (triplePass content) (pairPass content)
        (fromPass content) (joinPass content) (selectPass content) p hp
        (by simpa [tripleDbs] using hdb)).2

/-- C10 witness: the pair (t, where) survives and produces both the
relationship entry and the reserved-word column. -/
theorem c10_reserved_words_witness :
    ("", "t", "where") ∈ (extract_sql_components "t.where").relationships ∧
    "where" ∈ (extract_sql_components "t.where").column :=
  c10_reserved_words.2.2 "t.where" ("t", "where") (by decide) (by decide)

end SqlXtract
